import Mathlib

set_option maxHeartbeats 1000000

/-!
Verification of the Wasm function code emitter
(`compiler/gen_wasm/src/wasm_module/code_builder.rs`).

This file gives a shallow embedding of the `CodeBuilder` state machine and
its operations, and proves the specified properties about them.

Modelling conventions:
  * Rust `Vec<u8>` buffers become `List Nat` (each element a byte value);
    `Vec<T>` becomes `List T` with index 0 the bottom / oldest element,
    so Rust `push` is `++ [x]`, `last` is `getLast?`, `truncate n` is
    `take n`, `iter().position` / `remove` of the first match is
    `List.erase`.
  * `vm_block_stack` is kept with the innermost (current) block at the
    head of the list; the Rust code only ever touches the last block or
    iterates over all blocks, so this is a transparent re-orientation.
  * Every Rust panic path (`unwrap`, `unreachable!`, slice-bounds, and
    integer-underflow on `usize` subtraction of stack depths) is modelled
    by returning `none`; `u32` casts and wrapping are modelled with
    explicit `% 2 ^ 32`.
  * The arena parameter and the debug logging are ignored: they do not
    affect any observable result.
-/

namespace RocWasm

/-- IR symbols are opaque identifiers; the emitter only compares them. -/
abbrev Symbol := Nat

/-- The sentinel symbol for anonymous operand-stack slots. -/
def WASM_TMP : Symbol := 0

/-- A Wasm local index (Rust `LocalId(pub u32)`). -/
structure LocalId where
  val : Nat
  deriving DecidableEq, Repr

/-- The opcodes used by the emitter (subset of the Wasm MVP opcode table
needed by the modelled operations; the table itself is an external
collaborator of the core). -/
inductive OpCode where
  | UNREACHABLE
  | NOP
  | BLOCK
  | LOOP
  | IF
  | ELSE
  | END
  | BR
  | BRIF
  | RETURN
  | CALL
  | DROP
  | SELECT
  | GETLOCAL
  | SETLOCAL
  | TEELOCAL
  | GETGLOBAL
  | SETGLOBAL
  | I32CONST
  | I32ADD
  | I32SUB
  deriving DecidableEq, Repr

/-- Wasm binary encoding of each opcode (`opcode as u8` in the source). -/
def OpCode.toByte : OpCode → Nat
  | .UNREACHABLE => 0x00
  | .NOP => 0x01
  | .BLOCK => 0x02
  | .LOOP => 0x03
  | .IF => 0x04
  | .ELSE => 0x05
  | .END => 0x0b
  | .BR => 0x0c
  | .BRIF => 0x0d
  | .RETURN => 0x0f
  | .CALL => 0x10
  | .DROP => 0x1a
  | .SELECT => 0x1b
  | .GETLOCAL => 0x20
  | .SETLOCAL => 0x21
  | .TEELOCAL => 0x22
  | .GETGLOBAL => 0x23
  | .SETGLOBAL => 0x24
  | .I32CONST => 0x41
  | .I32ADD => 0x6a
  | .I32SUB => 0x6b

/-- Wasm value types (Rust representation matches the Wasm encoding). -/
inductive ValueType where
  | I32
  | I64
  | F32
  | F64
  deriving DecidableEq, Repr

def ValueType.toByte : ValueType → Nat
  | .I32 => 0x7f
  | .I64 => 0x7e
  | .F32 => 0x7d
  | .F64 => 0x7c

/-- Modelled from the spec: unsigned LEB128 encoding (the `encode_u32`
helper lives in `serialize.rs`, which is not among the sources; the spec
glossary defines LEB128 as little-endian base-128 with a continuation
bit). Structural fuel of 5 bytes covers every `u32`. -/
def leb128Aux : Nat → Nat → List Nat
  | 0, _ => []
  | fuel + 1, x => if x < 128 then [x] else (x % 128 + 128) :: leb128Aux fuel (x / 128)

/-- Modelled from the spec: `encode_u32` writes the minimal unsigned
LEB128 form of a `u32` value. -/
def encode_u32 (x : Nat) : List Nat := leb128Aux 5 x

/-- Modelled from the spec: padded LEB128 "writes 5 bytes regardless of
magnitude" (glossary); the first four bytes carry a continuation bit. -/
def encode_padded_u32 (x : Nat) : List Nat :=
  [x % 128 + 128, x / 128 % 128 + 128, x / 128 ^ 2 % 128 + 128,
   x / 128 ^ 3 % 128 + 128, x / 128 ^ 4 % 128]

/-- Modelled from the spec: signed LEB128 encoding (`encode_i32` in
`serialize.rs`, not among the sources). Fuel of 8 covers every `i32`. -/
def sleb128Aux : Nat → Int → List Nat
  | 0, _ => []
  | fuel + 1, x =>
    let byte := (Int.emod x 128).toNat
    let rest := Int.ediv x 128
    if (rest = 0 ∧ byte < 64) ∨ (rest = -1 ∧ 64 ≤ byte) then [byte]
    else (byte + 128) :: sleb128Aux fuel rest

/-- Modelled from the spec: `encode_i32` writes the signed LEB128 form of
an `i32` value. -/
def encode_i32 (x : Int) : List Nat := sleb128Aux 8 x

/-- Modelled from the spec: relocation kinds for function-index
immediates (`linking.rs` is not among the sources). -/
inductive IndexRelocType where
  | FunctionIndexLeb
  deriving DecidableEq, Repr

/-- Modelled from the spec: relocation kinds for memory-address
immediates (`linking.rs` is not among the sources). -/
inductive OffsetRelocType where
  | MemoryAddrLeb
  deriving DecidableEq, Repr

/-- Modelled from the spec: a relocation entry carries an offset into
`code` (later rewritten to be relative to the code-section body) plus
symbol-table metadata; the two flavours are `Index` and `Offset`. -/
inductive RelocationEntry where
  | Index (type_id : IndexRelocType) (offset : Nat) (symbol_index : Nat)
  | Offset (type_id : OffsetRelocType) (offset : Nat) (symbol_index : Nat) (addend : Int)
  deriving DecidableEq, Repr

/-- The `offset()` accessor of a relocation entry. -/
def RelocationEntry.offset : RelocationEntry → Nat
  | .Index _ o _ => o
  | .Offset _ o _ _ => o

/-- The `*offset_mut() += delta as u32` update of a relocation entry,
with `u32` wrapping made explicit. -/
def RelocationEntry.addToOffset (r : RelocationEntry) (delta : Nat) : RelocationEntry :=
  match r with
  | .Index t o s => .Index t ((o + delta) % 2 ^ 32) s
  | .Offset t o s a => .Offset t ((o + delta) % 2 ^ 32) s a

/-- Replace the offset of a relocation entry (used by the spec-side
description of the rewrite). -/
def RelocationEntry.withOffset (r : RelocationEntry) (o : Nat) : RelocationEntry :=
  match r with
  | .Index t _ s => .Index t o s
  | .Offset t _ s a => .Offset t o s a

/-- An instruction (`local.set` or `local.tee`) to be inserted into the
function code: `insert_bytes[start..end]` goes in front of code byte
`at`. Field names carry a trailing underscore because `at` and `end`
are Lean keywords. -/
structure Insertion where
  at_ : Nat
  start : Nat
  end_ : Nat
  deriving DecidableEq, Repr

/-- A control block in the model of the VM. Child blocks cannot see
values from their parent block. -/
structure VmBlock where
  opcode : OpCode
  value_stack : List Symbol
  has_result : Bool
  deriving DecidableEq, Repr

/-- The state the driver holds per IR symbol. -/
inductive VmSymbolState where
  | NotYetPushed
  | Pushed (pushed_at : Nat)
  | Popped (pushed_at : Nat)
  deriving DecidableEq, Repr

/-- The per-function emitter state (the `arena` field is dropped: it only
supplies allocation). `vm_block_stack` keeps the current block at the
head (see the module conventions). -/
structure CodeBuilder where
  code : List Nat
  insert_bytes : List Nat
  insertions : List Insertion
  preamble : List Nat
  inner_length : List Nat
  vm_block_stack : List VmBlock
  relocations : List RelocationEntry
  deriving DecidableEq, Repr

/-- `CodeBuilder::new`: one root block representing the function body. -/
def CodeBuilder.new : CodeBuilder :=
  { code := []
    insert_bytes := []
    insertions := []
    preamble := []
    inner_length := []
    vm_block_stack := [{ opcode := .BLOCK, value_stack := [], has_result := true }]
    relocations := [] }

/-- `add_insertion`: push `opcode` + LEB128 immediate onto `insert_bytes`
and record the `Insertion` describing where those bytes belong. -/
def CodeBuilder.add_insertion (cb : CodeBuilder) (insert_at : Nat) (opcode : OpCode)
    (immediate : Nat) : CodeBuilder :=
  let start := cb.insert_bytes.length
  let insert_bytes := cb.insert_bytes ++ opcode.toByte :: encode_u32 immediate
  { cb with
      insert_bytes := insert_bytes
      insertions := cb.insertions ++ [{ at_ := insert_at, start := start, end_ := insert_bytes.length }] }

/-- `set_top_symbol`: replace the top of the current block's value stack
by `sym` and report `Pushed` with the current code length. `none` models
the `unwrap` panics on an empty block stack or empty value stack. -/
def CodeBuilder.set_top_symbol (cb : CodeBuilder) (sym : Symbol) :
    Option (CodeBuilder × VmSymbolState) :=
  match cb.vm_block_stack with
  | [] => none
  | blk :: rest =>
    if blk.value_stack.isEmpty then none
    else
      some ({ cb with
                vm_block_stack :=
                  { blk with value_stack := blk.value_stack.dropLast ++ [sym] } :: rest },
            .Pushed cb.code.length)

/-- `inst_base`: truncate the current value stack by `pops`, optionally
push the sentinel, append the opcode byte. `none` models the panic on an
empty block stack and the underflow abort when `pops` exceeds the
current stack depth (`current_stack.len() - pops` on `usize`). -/
def CodeBuilder.inst_base (cb : CodeBuilder) (opcode : OpCode) (pops : Nat) (push : Bool) :
    Option CodeBuilder :=
  match cb.vm_block_stack with
  | [] => none
  | blk :: rest =>
    if pops ≤ blk.value_stack.length then
      let new_stack := blk.value_stack.take (blk.value_stack.length - pops)
      let new_stack := if push then new_stack ++ [WASM_TMP] else new_stack
      some { cb with
               vm_block_stack := { blk with value_stack := new_stack } :: rest
               code := cb.code ++ [opcode.toByte] }
    else none

/-- `inst`: plain instruction without immediates (the logging is
dropped). -/
def CodeBuilder.inst (cb : CodeBuilder) (opcode : OpCode) (pops : Nat) (push : Bool) :
    Option CodeBuilder :=
  cb.inst_base opcode pops push

/-- `inst_imm32`: `inst_base` followed by a LEB128-encoded immediate. -/
def CodeBuilder.inst_imm32 (cb : CodeBuilder) (opcode : OpCode) (pops : Nat) (push : Bool)
    (immediate : Nat) : Option CodeBuilder :=
  (cb.inst_base opcode pops push).map fun cb =>
    { cb with code := cb.code ++ encode_u32 immediate }

def CodeBuilder.get_local (cb : CodeBuilder) (id : LocalId) : Option CodeBuilder :=
  cb.inst_imm32 .GETLOCAL 0 true id.val

def CodeBuilder.set_local (cb : CodeBuilder) (id : LocalId) : Option CodeBuilder :=
  cb.inst_imm32 .SETLOCAL 1 false id.val

def CodeBuilder.tee_local (cb : CodeBuilder) (id : LocalId) : Option CodeBuilder :=
  cb.inst_imm32 .TEELOCAL 0 false id.val

def CodeBuilder.get_global (cb : CodeBuilder) (id : Nat) : Option CodeBuilder :=
  cb.inst_imm32 .GETGLOBAL 0 true id

def CodeBuilder.set_global (cb : CodeBuilder) (id : Nat) : Option CodeBuilder :=
  cb.inst_imm32 .SETGLOBAL 1 false id

def CodeBuilder.i32_const (cb : CodeBuilder) (x : Int) : Option CodeBuilder :=
  (cb.inst_base .I32CONST 0 true).map fun cb =>
    { cb with code := cb.code ++ encode_i32 x }

def CodeBuilder.i32_add (cb : CodeBuilder) : Option CodeBuilder :=
  cb.inst .I32ADD 2 true

def CodeBuilder.i32_sub (cb : CodeBuilder) : Option CodeBuilder :=
  cb.inst .I32SUB 2 true

def CodeBuilder.drop_ (cb : CodeBuilder) : Option CodeBuilder :=
  cb.inst .DROP 1 false

/-- `load_symbol`: load a symbol that is stored in the VM stack. The
outer `Option` models the abort paths (`unreachable!` on `NotYetPushed`
and the `unwrap`s inside); the inner `Option VmSymbolState` is the Rust
return value (`none` = the symbol was promoted to a local). -/
def CodeBuilder.load_symbol (cb : CodeBuilder) (symbol : Symbol) (vm_state : VmSymbolState)
    (next_local_id : LocalId) : Option (CodeBuilder × Option VmSymbolState) :=
  match vm_state with
  | .NotYetPushed => none
  | .Pushed pushed_at =>
    match cb.vm_block_stack with
    | [] => none
    | blk :: _ =>
      if blk.value_stack.getLast? = some symbol then
        -- the symbol is already on top of the current block's stack
        some (cb, some (.Popped pushed_at))
      else
        -- remove the first occurrence of the symbol from the value stack
        -- of every block that holds it (`iter_mut` + `position` + `remove`)
        let found := cb.vm_block_stack.any fun b => b.value_stack.contains symbol
        let cb := { cb with
                      vm_block_stack := cb.vm_block_stack.map fun (b : VmBlock) =>
                        { b with value_stack := b.value_stack.erase symbol } }
        let cb :=
          if found then cb.add_insertion pushed_at .SETLOCAL next_local_id.val
          else cb.add_insertion pushed_at .TEELOCAL next_local_id.val
        (cb.get_local next_local_id).bind fun cb =>
          (cb.set_top_symbol symbol).map fun p => (p.1, (none : Option VmSymbolState))
  | .Popped pushed_at =>
    let cb := cb.add_insertion pushed_at .TEELOCAL next_local_id.val
    (cb.get_local next_local_id).bind fun cb =>
      (cb.set_top_symbol symbol).map fun p => (p.1, (none : Option VmSymbolState))

/-- The batching loop of `build_local_declarations`: returns the final
batch count, batch type, batch size and preamble accumulated so far. -/
def declBatchLoop : List ValueType → Nat → ValueType → Nat → List Nat →
    Nat × ValueType × Nat × List Nat
  | [], num_batches, batch_type, batch_size, pre => (num_batches, batch_type, batch_size, pre)
  | t :: ts, num_batches, batch_type, batch_size, pre =>
    if t = batch_type then declBatchLoop ts num_batches batch_type (batch_size + 1) pre
    else declBatchLoop ts (num_batches + 1) t 1 (pre ++ encode_u32 batch_size ++ [batch_type.toByte])

/-- `build_local_declarations`: run-length encode the local types into
the preamble. The `num_batches >= 128` branch composes Rust's
`resize` + `copy_within(1..old_len, 5)` + `overwrite_padded_u32(0, _)`,
whose net effect is a 5-byte padded count followed by the old bytes
after the reserved one. -/
def CodeBuilder.build_local_declarations (cb : CodeBuilder) (local_types : List ValueType) :
    CodeBuilder :=
  let pre := cb.preamble ++ [0]
  match local_types with
  | [] => { cb with preamble := pre }
  | t0 :: _ =>
    let r := declBatchLoop local_types 0 t0 0 pre
    let num_batches := r.1 + 1
    let pre := r.2.2.2 ++ encode_u32 r.2.2.1 ++ [r.2.1.toByte]
    if num_batches < 128 then { cb with preamble := pre.set 0 num_batches }
    else { cb with preamble := encode_padded_u32 num_batches ++ pre.drop 1 }

/-- Modelled from the spec: the compiler-wide shadow-stack-pointer global
(a crate-root constant, not among the sources). -/
def STACK_POINTER_GLOBAL_ID : Nat := 0

/-- Modelled from the spec: the frame alignment constant (crate root, not
among the sources); its value is irrelevant to the proved claims. -/
def FRAME_ALIGNMENT_BYTES : Int := 16

/-- Modelled from the spec: round `unaligned` up to the next multiple of
`alignment_bytes` (crate-root helper, not among the sources). -/
def round_up_to_alignment (unaligned alignment_bytes : Int) : Int :=
  ((unaligned + alignment_bytes - 1) / alignment_bytes) * alignment_bytes

/-- `build_stack_frame_push`: prologue bytes, written to the preamble. -/
def CodeBuilder.build_stack_frame_push (cb : CodeBuilder) (frame_size : Int)
    (frame_pointer : LocalId) : CodeBuilder :=
  { cb with
      preamble := cb.preamble
        ++ [OpCode.GETGLOBAL.toByte] ++ encode_u32 STACK_POINTER_GLOBAL_ID
        ++ [OpCode.I32CONST.toByte] ++ encode_i32 frame_size
        ++ [OpCode.I32SUB.toByte]
        ++ [OpCode.TEELOCAL.toByte] ++ encode_u32 frame_pointer.val
        ++ [OpCode.SETGLOBAL.toByte] ++ encode_u32 STACK_POINTER_GLOBAL_ID }

/-- `build_stack_frame_pop`: epilogue instructions, emitted into `code`
through the normal instruction methods. -/
def CodeBuilder.build_stack_frame_pop (cb : CodeBuilder) (frame_size : Int)
    (frame_pointer : LocalId) : Option CodeBuilder :=
  (cb.get_local frame_pointer).bind fun cb =>
    (cb.i32_const frame_size).bind fun cb =>
      cb.i32_add.bind fun cb =>
        cb.set_global STACK_POINTER_GLOBAL_ID

/-- Stable insertion into a list sorted ascending by `at`: the new
element goes in front of the first element whose `at` is `≥` its own,
so elements with equal keys keep their original relative order. -/
def insertByAt (i : Insertion) : List Insertion → List Insertion
  | [] => [i]
  | j :: js => if i.at_ ≤ j.at_ then i :: j :: js else j :: insertByAt i js

/-- Stable sort by the `at` field. A stable sort is extensionally unique,
so this insertion sort is the function computed by Rust's stable
`sort_by_key`. -/
def sortByAt : List Insertion → List Insertion
  | [] => []
  | i :: is => insertByAt i (sortByAt is)

/-- `build_fn_header`: local declarations, optional stack-frame
prologue/epilogue, the final `end` opcode, the encoded inner length and
the stable sort of the insertions. -/
def CodeBuilder.build_fn_header (cb : CodeBuilder) (local_types : List ValueType)
    (frame_size : Int) (frame_pointer : Option LocalId) : Option CodeBuilder :=
  let cb := cb.build_local_declarations local_types
  let step : Option CodeBuilder :=
    match frame_pointer with
    | some frame_ptr_id =>
      let aligned_size := round_up_to_alignment frame_size FRAME_ALIGNMENT_BYTES
      (cb.build_stack_frame_push aligned_size frame_ptr_id).build_stack_frame_pop
        aligned_size frame_ptr_id
    | none => some cb
  step.bind fun cb =>
    let cb := { cb with code := cb.code ++ [OpCode.END.toByte] }
    let inner_len := cb.preamble.length + cb.code.length + cb.insert_bytes.length
    some { cb with
             inner_length := cb.inner_length ++ encode_u32 (inner_len % 2 ^ 32)
             insertions := sortByAt cb.insertions }

/-- Checked slice `l[a..b]`: `none` models the Rust slice-bounds panic. -/
def slice? (l : List Nat) (a b : Nat) : Option (List Nat) :=
  if a ≤ b ∧ b ≤ l.length then some ((l.take b).drop a) else none

/-- The serialization loop of `serialize_with_relocs`: one iteration per
insertion plus a final one for the tail of `code`. Arguments after the
fixed `code`, `ib` (= `insert_bytes`) and `base` (= `reloc_base_offset`)
are the remaining insertions, the not-yet-copied relocations, `code_pos`,
the output buffer and the accumulated `final_relocs`. -/
def serializeLoop (code ib : List Nat) (base : Nat) :
    List Insertion → List RelocationEntry → Nat → List Nat → List RelocationEntry →
    Option (List Nat × List RelocationEntry)
  | [], pending, code_pos, buffer, fr =>
    let next_pos := code.length
    let section_body_pos := buffer.length - base
    let moved := pending.takeWhile fun r => r.offset < next_pos % 2 ^ 32
    let fr := fr ++ moved.map fun r => r.addToOffset (section_body_pos - code_pos)
    match slice? code code_pos next_pos with
    | none => none
    | some seg => some (buffer ++ seg, fr)
  | i :: rest, pending, code_pos, buffer, fr =>
    let next_pos := i.at_
    let section_body_pos := buffer.length - base
    let moved := pending.takeWhile fun r => r.offset < next_pos % 2 ^ 32
    let pending2 := pending.dropWhile fun r => r.offset < next_pos % 2 ^ 32
    let fr := fr ++ moved.map fun r => r.addToOffset (section_body_pos - code_pos)
    match slice? code code_pos next_pos, slice? ib i.start i.end_ with
    | some seg, some ibseg =>
      serializeLoop code ib base rest pending2 i.at_ (buffer ++ seg ++ ibseg) fr
    | _, _ => none

/-- `serialize_with_relocs`: append `inner_length`, `preamble`, then the
spliced code, rewriting relocation offsets along the way. -/
def CodeBuilder.serialize_with_relocs (cb : CodeBuilder) (buffer : List Nat)
    (final_relocs : List RelocationEntry) (reloc_base_offset : Nat) :
    Option (List Nat × List RelocationEntry) :=
  serializeLoop cb.code cb.insert_bytes reloc_base_offset cb.insertions cb.relocations 0
    (buffer ++ cb.inner_length ++ cb.preamble) final_relocs

/-- Spec-side description of the splice (following the spec's words):
walk `code` from `code_pos`; for each insertion append
`code[code_pos..at]` then `insert_bytes[start..end]` and advance
`code_pos = at`; after the last insertion append the rest of `code`. -/
def spliceSpecFrom (code ib : List Nat) : List Insertion → Nat → List Nat
  | [], code_pos => code.drop code_pos
  | i :: rest, code_pos =>
    ((code.take i.at_).drop code_pos) ++ ((ib.take i.end_).drop i.start)
      ++ spliceSpecFrom code ib rest i.at_

/-- Spec-side description of the whole spliced body. -/
def spliceSpec (code : List Nat) (ins : List Insertion) (ib : List Nat) : List Nat :=
  spliceSpecFrom code ib ins 0

/-- Spec-side description of the relocation rewrite (following the
spec's words): per segment, every pending relocation with offset below
the segment boundary is emitted with new offset
`(buffer size before the segment - reloc_base_offset) +
(original offset - code position at the segment start)`; `buf_len`
tracks the buffer size at the start of the segment. -/
def relocSpecFrom (code_len base : Nat) :
    List Insertion → List RelocationEntry → Nat → Nat → List RelocationEntry
  | [], pending, code_pos, buf_len =>
    (pending.takeWhile fun r => r.offset < code_len).map fun r =>
      r.withOffset ((buf_len - base) + (r.offset - code_pos))
  | i :: rest, pending, code_pos, buf_len =>
    ((pending.takeWhile fun r => r.offset < i.at_).map fun r =>
      r.withOffset ((buf_len - base) + (r.offset - code_pos)))
      ++ relocSpecFrom code_len base rest (pending.dropWhile fun r => r.offset < i.at_) i.at_
          (buf_len + (i.at_ - code_pos) + (i.end_ - i.start))

/-- The total size of the bytes an insertion list will splice in. -/
def insSizes (l : List Insertion) : Nat := (l.map fun i => i.end_ - i.start).sum

/-- `call`: pop the arguments, optionally push the return value, emit the
opcode, a padded 5-byte function index, and record a function-index
relocation pointing at the first index byte. -/
def CodeBuilder.call (cb : CodeBuilder) (function_index symbol_index : Nat) (n_args : Nat)
    (has_return_val : Bool) : Option CodeBuilder :=
  (cb.inst_base .CALL n_args has_return_val).map fun cb =>
    let offset := cb.code.length % 2 ^ 32
    { cb with
        code := cb.code ++ encode_padded_u32 function_index
        relocations := cb.relocations
          ++ [.Index .FunctionIndexLeb offset symbol_index] }

/-- `insert_memory_relocation`: record a memory-address relocation at the
current code offset. -/
def CodeBuilder.insert_memory_relocation (cb : CodeBuilder) (symbol_index : Nat) : CodeBuilder :=
  { cb with
      relocations := cb.relocations
        ++ [.Offset .MemoryAddrLeb (cb.code.length % 2 ^ 32) symbol_index 0] }

/-- `end`: emit the `end` opcode, pop the ended block, and propagate its
top value to the parent block when the ended block has a result. `none`
models the `unwrap` panics (empty block stack, result demanded from an
empty value stack, no parent to receive the result). The name carries a
trailing underscore because `end` is a Lean keyword. -/
def CodeBuilder.end_ (cb : CodeBuilder) : Option CodeBuilder :=
  (cb.inst_base .END 0 false).bind fun cb =>
    match cb.vm_block_stack with
    | [] => none
    | ended_block :: rest =>
      let cb := { cb with vm_block_stack := rest }
      if ended_block.has_result then
        match ended_block.value_stack.getLast? with
        | none => none
        | some result =>
          match cb.vm_block_stack with
          | [] => none
          | parent :: rest2 =>
            some { cb with
                     vm_block_stack :=
                       { parent with value_stack := parent.value_stack ++ [result] } :: rest2 }
      else some cb

/-! Theorems. -/

/-- C7: on `load_symbol(S, Pushed { pushed_at }, L)` with `S` on top of
the current block's value stack, nothing is appended to `code` or
`insert_bytes`, no `Insertion` and no relocation is recorded, the block
stack is unchanged (the builder is returned untouched), and the result
is `Popped { pushed_at }` with the same `pushed_at`. -/
theorem load_symbol_pushed_top_noop (cb : CodeBuilder) (S : Symbol) (p : Nat) (L : LocalId)
    (blk : VmBlock) (rest : List VmBlock)
    (hstk : cb.vm_block_stack = blk :: rest)
    (htop : blk.value_stack.getLast? = some S) :
    cb.load_symbol S (.Pushed p) L = some (cb, some (.Popped p)) := by
  simp [CodeBuilder.load_symbol, hstk, htop]

theorem load_symbol_pushed_top_noop_witness :
    CodeBuilder.load_symbol
        { CodeBuilder.new with vm_block_stack := [⟨.BLOCK, [42], true⟩] } 42 (.Pushed 2) ⟨5⟩
      = some ({ CodeBuilder.new with vm_block_stack := [⟨.BLOCK, [42], true⟩] },
              some (.Popped 2)) :=
  load_symbol_pushed_top_noop _ 42 2 ⟨5⟩ ⟨.BLOCK, [42], true⟩ [] rfl rfl

/-- C1: on `load_symbol(X, Popped { pushed_at := p }, L)` exactly one
`Insertion` is recorded, carrying the bytes of `local.tee L` at code
offset `p`; a `local.get L` is appended to `code` at the current
position; the new top stack slot is tagged `X`; and the Rust return
value is `None` (the symbol is promoted to a local). -/
theorem load_symbol_popped_inserts_tee (cb : CodeBuilder) (X : Symbol) (p : Nat) (L : LocalId)
    (blk : VmBlock) (rest : List VmBlock) (hstk : cb.vm_block_stack = blk :: rest) :
    cb.load_symbol X (.Popped p) L =
      some ({ cb with
                insert_bytes := cb.insert_bytes ++ OpCode.TEELOCAL.toByte :: encode_u32 L.val
                insertions := cb.insertions
                  ++ [{ at_ := p, start := cb.insert_bytes.length,
                        end_ := cb.insert_bytes.length
                          + (OpCode.TEELOCAL.toByte :: encode_u32 L.val).length }]
                code := cb.code ++ OpCode.GETLOCAL.toByte :: encode_u32 L.val
                vm_block_stack := { blk with value_stack := blk.value_stack ++ [X] } :: rest },
            none) := by
  simp only [CodeBuilder.load_symbol, CodeBuilder.add_insertion, CodeBuilder.get_local,
    CodeBuilder.inst_imm32, CodeBuilder.inst_base, CodeBuilder.set_top_symbol, hstk,
    List.length_append, Nat.zero_le, if_pos, Nat.sub_zero, List.take_length,
    Option.map_map, Option.map_some, Option.bind_some]
  simp [List.dropLast_concat, List.append_assoc, Nat.add_comm]

theorem load_symbol_popped_inserts_tee_witness :
    CodeBuilder.load_symbol CodeBuilder.new 42 (.Popped 0) ⟨5⟩ =
      some ({ CodeBuilder.new with
                insert_bytes := [OpCode.TEELOCAL.toByte] ++ encode_u32 5
                insertions := [{ at_ := 0, start := 0,
                                 end_ := (OpCode.TEELOCAL.toByte :: encode_u32 5).length }]
                code := [OpCode.GETLOCAL.toByte] ++ encode_u32 5
                vm_block_stack := [⟨.BLOCK, [42], true⟩] },
            none) := by
  have h := load_symbol_popped_inserts_tee CodeBuilder.new 42 0 ⟨5⟩ ⟨.BLOCK, [], true⟩ [] rfl
  exact h.trans (by rfl)

/-- C8 (amended): `set_top_symbol(S)` replaces the top of the current
block's value stack by `S` and returns `Pushed { pushed_at }` with
`pushed_at = code.len()` at call entry — the byte offset immediately
AFTER the producing instruction's bytes (where the next instruction will
start), not the offset of the producing opcode byte itself. Insertions
recorded at `pushed_at` are therefore spliced in right after the
producing instruction. -/
theorem set_top_symbol_pushed_at (cb : CodeBuilder) (sym : Symbol) (blk : VmBlock)
    (rest : List VmBlock) (hstk : cb.vm_block_stack = blk :: rest)
    (hne : blk.value_stack ≠ []) :
    cb.set_top_symbol sym =
      some ({ cb with
                vm_block_stack :=
                  { blk with value_stack := blk.value_stack.dropLast ++ [sym] } :: rest },
            .Pushed cb.code.length) := by
  simp [CodeBuilder.set_top_symbol, hstk, hne]

theorem set_top_symbol_pushed_at_witness :
    CodeBuilder.set_top_symbol
        { CodeBuilder.new with code := [0x41, 0x07], vm_block_stack := [⟨.BLOCK, [0], true⟩] } 42
      = some ({ CodeBuilder.new with
                  code := [0x41, 0x07]
                  vm_block_stack := [⟨.BLOCK, [42], true⟩] },
              .Pushed 2) := by
  have h := set_top_symbol_pushed_at
    { CodeBuilder.new with code := [0x41, 0x07], vm_block_stack := [⟨.BLOCK, [0], true⟩] }
    42 ⟨.BLOCK, [0], true⟩ [] rfl (by simp)
  exact h.trans (by rfl)

/-- C8 (counterexample to the claim as stated): push `i32.const 7` on a
fresh builder (its opcode byte `0x41` is emitted at offset 0, the code
is then `[0x41, 0x07]` of length 2), and tag the result. The returned
state is `Pushed { pushed_at := 2 }`: `code[2]` does not even exist, so
`pushed_at` is not the offset at which the producing opcode byte was
emitted (that offset is 0). -/
theorem set_top_symbol_opcode_offset_counterexample :
    ((CodeBuilder.new.i32_const 7).bind fun cb => cb.set_top_symbol 42).map
        (fun q => (q.1.code, q.2)) = some ([0x41, 0x07], .Pushed 2)
    ∧ ([0x41, 0x07] : List Nat)[2]? = none
    ∧ ([0x41, 0x07] : List Nat)[0]? = some 0x41 := by
  exact ⟨by rfl, by rfl, by rfl⟩

/-- C9: the error branch of `inst_base` is reached exactly when the
declared pop count exceeds the current block's value-stack depth; in
that case nothing is emitted (the call yields no new state at all), and
otherwise the opcode byte is appended and the stack is truncated by
`pops` with the sentinel pushed when `push` holds. -/
theorem inst_base_underflow_iff (cb : CodeBuilder) (opcode : OpCode) (pops : Nat) (push : Bool)
    (blk : VmBlock) (rest : List VmBlock) (hstk : cb.vm_block_stack = blk :: rest) :
    (cb.inst_base opcode pops push = none ↔ blk.value_stack.length < pops)
    ∧ (pops ≤ blk.value_stack.length →
        cb.inst_base opcode pops push =
          some { cb with
                   vm_block_stack :=
                     { blk with value_stack :=
                         blk.value_stack.take (blk.value_stack.length - pops)
                           ++ (if push then [WASM_TMP] else []) } :: rest
                   code := cb.code ++ [opcode.toByte] }) := by
  constructor
  · constructor
    · intro h
      by_contra hlt
      push_neg at hlt
      simp [CodeBuilder.inst_base, hstk, hlt] at h
    · intro h
      simp [CodeBuilder.inst_base, hstk, Nat.not_le.mpr h]
  · intro h
    cases push <;> simp [CodeBuilder.inst_base, hstk, h]

theorem inst_base_underflow_iff_witness :
    (CodeBuilder.inst_base
        { CodeBuilder.new with vm_block_stack := [⟨.BLOCK, [7], true⟩] } .DROP 2 false = none
      ↔ ([7] : List Symbol).length < 2) := by
  have h := inst_base_underflow_iff
    { CodeBuilder.new with vm_block_stack := [⟨.BLOCK, [7], true⟩] }
    .DROP 2 false ⟨.BLOCK, [7], true⟩ [] rfl
  exact h.1

/-- C6: `call` pops `n_args` symbols from the current block's value
stack, pushes one anonymous temp exactly when `has_return_val` holds,
writes the `call` opcode followed by exactly 5 bytes of padded LEB128
for the function index (whatever its magnitude), and records one
`IndexRelocType.FunctionIndexLeb` relocation whose offset is the code
offset of the first of those 5 bytes. -/
theorem call_writes_padded_index (cb : CodeBuilder) (function_index symbol_index n_args : Nat)
    (has_return_val : Bool) (blk : VmBlock) (rest : List VmBlock)
    (hstk : cb.vm_block_stack = blk :: rest)
    (hargs : n_args ≤ blk.value_stack.length) :
    cb.call function_index symbol_index n_args has_return_val =
      some { cb with
               code := cb.code ++ OpCode.CALL.toByte :: encode_padded_u32 function_index
               relocations := cb.relocations
                 ++ [.Index .FunctionIndexLeb ((cb.code.length + 1) % 2 ^ 32) symbol_index]
               vm_block_stack :=
                 { blk with value_stack :=
                     blk.value_stack.take (blk.value_stack.length - n_args)
                       ++ (if has_return_val then [WASM_TMP] else []) } :: rest }
    ∧ (encode_padded_u32 function_index).length = 5 := by
  constructor
  · cases has_return_val <;>
      simp [CodeBuilder.call, CodeBuilder.inst_base, hstk, hargs]
  · rfl

theorem call_writes_padded_index_witness :
    CodeBuilder.call { CodeBuilder.new with vm_block_stack := [⟨.BLOCK, [7], true⟩] } 1 9 1 true =
      some { CodeBuilder.new with
               code := [OpCode.CALL.toByte] ++ encode_padded_u32 1
               relocations := [.Index .FunctionIndexLeb 1 9]
               vm_block_stack := [⟨.BLOCK, [WASM_TMP], true⟩] }
    ∧ (encode_padded_u32 1).length = 5 := by
  have h := call_writes_padded_index
    { CodeBuilder.new with vm_block_stack := [⟨.BLOCK, [7], true⟩] }
    1 9 1 true ⟨.BLOCK, [7], true⟩ [] rfl (by simp)
  exact ⟨h.1.trans (by rfl), h.2⟩

/-- C10: on `end`, when the popped block has `has_result = true` the
emitter aborts if that block's value stack is empty; when it is
non-empty exactly its top symbol is pushed onto the parent block's value
stack; and when `has_result = false` nothing is propagated. (In every
non-abort case the `end` opcode byte `0x0b` is appended.) -/
theorem end_result_propagation (cb : CodeBuilder) (b parent : VmBlock) (rest : List VmBlock)
    (hstk : cb.vm_block_stack = b :: parent :: rest) :
    (b.has_result = true → b.value_stack = [] → cb.end_ = none)
    ∧ (∀ r, b.value_stack.getLast? = some r → b.has_result = true →
        cb.end_ = some { cb with
                           code := cb.code ++ [0x0b]
                           vm_block_stack :=
                             { parent with value_stack := parent.value_stack ++ [r] } :: rest })
    ∧ (b.has_result = false →
        cb.end_ = some { cb with
                           code := cb.code ++ [0x0b]
                           vm_block_stack := parent :: rest }) := by
  refine ⟨fun hres hemp => ?_, fun r hr hres => ?_, fun hres => ?_⟩
  · simp [CodeBuilder.end_, CodeBuilder.inst_base, hstk, hres, hemp]
  · simp [CodeBuilder.end_, CodeBuilder.inst_base, hstk, hres, List.take_length, hr]
    rfl
  · simp [CodeBuilder.end_, CodeBuilder.inst_base, hstk, hres, List.take_length]
    rfl

theorem end_result_propagation_witness :
    CodeBuilder.end_
        { CodeBuilder.new with vm_block_stack := [⟨.IF, [3, 7], true⟩, ⟨.BLOCK, [9], true⟩] } =
      some { CodeBuilder.new with
               code := [0x0b]
               vm_block_stack := [⟨.BLOCK, [9, 7], true⟩] } := by
  have h := end_result_propagation
    { CodeBuilder.new with vm_block_stack := [⟨.IF, [3, 7], true⟩, ⟨.BLOCK, [9], true⟩] }
    ⟨.IF, [3, 7], true⟩ ⟨.BLOCK, [9], true⟩ [] rfl
  exact (h.2.1 7 rfl rfl).trans (by rfl)

/-- C2: on `load_symbol(S, Pushed { pushed_at }, L)` where `S` is not on
top of the current block's value stack but occurs in some block's value
stack (possibly an outer one), the (first) occurrence is removed from
the value stack of every block holding it, one `Insertion` carrying the
bytes of `local.set L` is recorded at code offset `pushed_at`, a
`local.get L` is appended at the current position with the new top
tagged `S`, and the Rust return value is `None`. -/
theorem load_symbol_pushed_elsewhere_inserts_set (cb : CodeBuilder) (S : Symbol) (p : Nat)
    (L : LocalId) (blk : VmBlock) (rest : List VmBlock)
    (hstk : cb.vm_block_stack = blk :: rest)
    (htop : blk.value_stack.getLast? ≠ some S)
    (hfound : (cb.vm_block_stack.any fun b => b.value_stack.contains S) = true) :
    cb.load_symbol S (.Pushed p) L =
      some ({ cb with
                insert_bytes := cb.insert_bytes ++ OpCode.SETLOCAL.toByte :: encode_u32 L.val
                insertions := cb.insertions
                  ++ [{ at_ := p, start := cb.insert_bytes.length,
                        end_ := cb.insert_bytes.length
                          + (OpCode.SETLOCAL.toByte :: encode_u32 L.val).length }]
                code := cb.code ++ OpCode.GETLOCAL.toByte :: encode_u32 L.val
                vm_block_stack :=
                  { blk with value_stack := blk.value_stack.erase S ++ [S] }
                    :: rest.map fun b => { b with value_stack := b.value_stack.erase S } },
            none) := by
  rw [hstk] at hfound
  simp only [CodeBuilder.load_symbol, CodeBuilder.add_insertion, CodeBuilder.get_local,
    CodeBuilder.inst_imm32, CodeBuilder.inst_base, CodeBuilder.set_top_symbol, hstk,
    hfound, htop, if_false, if_true, List.map_cons]
  simp [htop, List.dropLast_concat, List.append_assoc, Nat.add_comm]

theorem load_symbol_pushed_elsewhere_inserts_set_witness :
    CodeBuilder.load_symbol
        { CodeBuilder.new with vm_block_stack := [⟨.BLOCK, [42, 7], true⟩] } 42 (.Pushed 1) ⟨5⟩ =
      some ({ CodeBuilder.new with
                insert_bytes := [OpCode.SETLOCAL.toByte] ++ encode_u32 5
                insertions := [{ at_ := 1, start := 0,
                                 end_ := (OpCode.SETLOCAL.toByte :: encode_u32 5).length }]
                code := [OpCode.GETLOCAL.toByte] ++ encode_u32 5
                vm_block_stack := [⟨.BLOCK, [7, 42], true⟩] },
            none) := by
  have h := load_symbol_pushed_elsewhere_inserts_set
    { CodeBuilder.new with vm_block_stack := [⟨.BLOCK, [42, 7], true⟩] }
    42 1 ⟨5⟩ ⟨.BLOCK, [42, 7], true⟩ [] rfl (by decide) (by decide)
  exact h.trans (by rfl)

theorem mem_insertByAt (x i : Insertion) (l : List Insertion) :
    x ∈ insertByAt i l ↔ x = i ∨ x ∈ l := by
  induction l with
  | nil => simp [insertByAt]
  | cons j js ih =>
    unfold insertByAt
    split
    · simp [List.mem_cons]
    · simp only [List.mem_cons, ih]
      tauto

theorem pairwise_insertByAt (i : Insertion) (l : List Insertion)
    (h : l.Pairwise fun a b => a.at_ ≤ b.at_) :
    (insertByAt i l).Pairwise fun a b => a.at_ ≤ b.at_ := by
  induction l with
  | nil => simp [insertByAt]
  | cons j js ih =>
    rw [List.pairwise_cons] at h
    unfold insertByAt
    split
    · rename_i hle
      refine List.Pairwise.cons ?_ (List.pairwise_cons.mpr h)
      intro x hx
      rcases List.mem_cons.mp hx with rfl | hx
      · exact hle
      · exact le_trans hle (h.1 x hx)
    · rename_i hlt
      push_neg at hlt
      refine List.Pairwise.cons ?_ (ih h.2)
      intro x hx
      rcases (mem_insertByAt x i js).mp hx with rfl | hx
      · omega
      · exact h.1 x hx

theorem filter_insertByAt (k : Nat) (i : Insertion) (l : List Insertion) :
    (insertByAt i l).filter (fun j => j.at_ == k) = (i :: l).filter (fun j => j.at_ == k) := by
  induction l with
  | nil => rfl
  | cons j js ih =>
    unfold insertByAt
    split
    · rfl
    · rename_i hlt
      push_neg at hlt
      by_cases hik : i.at_ = k
      · have hjk : ¬j.at_ = k := by omega
        simp only [List.filter_cons, ih, beq_iff_eq, hik, hjk]
        simp
      · simp only [List.filter_cons, ih, beq_iff_eq, hik]
        simp

theorem pairwise_sortByAt (l : List Insertion) :
    (sortByAt l).Pairwise fun a b => a.at_ ≤ b.at_ := by
  induction l with
  | nil => simp [sortByAt]
  | cons i is ih => exact pairwise_insertByAt i _ ih

theorem filter_sortByAt (k : Nat) (l : List Insertion) :
    (sortByAt l).filter (fun j => j.at_ == k) = l.filter (fun j => j.at_ == k) := by
  induction l with
  | nil => rfl
  | cons i is ih =>
    unfold sortByAt
    rw [filter_insertByAt, List.filter_cons, List.filter_cons, ih]

theorem build_local_declarations_fields (cb : CodeBuilder) (lt : List ValueType) :
    (cb.build_local_declarations lt).insertions = cb.insertions
    ∧ (cb.build_local_declarations lt).inner_length = cb.inner_length
    ∧ (cb.build_local_declarations lt).code = cb.code
    ∧ (cb.build_local_declarations lt).insert_bytes = cb.insert_bytes
    ∧ (cb.build_local_declarations lt).vm_block_stack = cb.vm_block_stack := by
  unfold CodeBuilder.build_local_declarations
  cases lt with
  | nil => simp
  | cons t ts =>
    dsimp only
    split <;> simp

theorem inst_base_fields {cb cb' : CodeBuilder} {op : OpCode} {pops : Nat} {push : Bool}
    (h : cb.inst_base op pops push = some cb') :
    cb'.insertions = cb.insertions ∧ cb'.inner_length = cb.inner_length
    ∧ cb'.preamble = cb.preamble ∧ cb'.insert_bytes = cb.insert_bytes
    ∧ ∃ extra, cb'.code = cb.code ++ extra := by
  unfold CodeBuilder.inst_base at h
  split at h
  · simp at h
  · split at h
    · obtain rfl := Option.some.inj h
      exact ⟨rfl, rfl, rfl, rfl, _, rfl⟩
    · simp at h

theorem inst_imm32_fields {cb cb' : CodeBuilder} {op : OpCode} {pops : Nat} {push : Bool}
    {imm : Nat} (h : cb.inst_imm32 op pops push imm = some cb') :
    cb'.insertions = cb.insertions ∧ cb'.inner_length = cb.inner_length
    ∧ cb'.preamble = cb.preamble ∧ cb'.insert_bytes = cb.insert_bytes
    ∧ ∃ extra, cb'.code = cb.code ++ extra := by
  unfold CodeBuilder.inst_imm32 at h
  rw [Option.map_eq_some'] at h
  obtain ⟨a, ha, rfl⟩ := h
  obtain ⟨h1, h2, h3, h4, e, h5⟩ := inst_base_fields ha
  exact ⟨h1, h2, h3, h4, e ++ encode_u32 imm, by simp [h5]⟩

theorem i32_const_fields {cb cb' : CodeBuilder} {x : Int} (h : cb.i32_const x = some cb') :
    cb'.insertions = cb.insertions ∧ cb'.inner_length = cb.inner_length
    ∧ cb'.preamble = cb.preamble ∧ cb'.insert_bytes = cb.insert_bytes
    ∧ ∃ extra, cb'.code = cb.code ++ extra := by
  unfold CodeBuilder.i32_const at h
  rw [Option.map_eq_some'] at h
  obtain ⟨a, ha, rfl⟩ := h
  obtain ⟨h1, h2, h3, h4, e, h5⟩ := inst_base_fields ha
  exact ⟨h1, h2, h3, h4, e ++ encode_i32 x, by simp [h5]⟩

theorem build_stack_frame_pop_fields {cb cb' : CodeBuilder} {fs : Int} {fp : LocalId}
    (h : cb.build_stack_frame_pop fs fp = some cb') :
    cb'.insertions = cb.insertions ∧ cb'.inner_length = cb.inner_length
    ∧ cb'.preamble = cb.preamble ∧ cb'.insert_bytes = cb.insert_bytes := by
  unfold CodeBuilder.build_stack_frame_pop at h
  rw [Option.bind_eq_some] at h
  obtain ⟨a, ha, h⟩ := h
  rw [Option.bind_eq_some] at h
  obtain ⟨b, hb, h⟩ := h
  rw [Option.bind_eq_some] at h
  obtain ⟨c, hc, h⟩ := h
  obtain ⟨a1, a2, a3, a4, -⟩ := inst_imm32_fields ha
  obtain ⟨b1, b2, b3, b4, -⟩ := i32_const_fields hb
  obtain ⟨c1, c2, c3, c4, -⟩ := inst_base_fields hc
  obtain ⟨d1, d2, d3, d4, -⟩ := inst_imm32_fields h
  exact ⟨by rw [d1, c1, b1, a1], by rw [d2, c2, b2, a2],
    by rw [d3, c3, b3, a3], by rw [d4, c4, b4, a4]⟩

/-- C5: after `build_fn_header` returns, the last byte of `code` is the
`end` opcode `0x0b`; the insertions are sorted ascending by `at` and the
sort is stable (for every key, the subsequence of insertions with that
`at` is exactly what it was in append order); and `inner_length` holds
the LEB128 encoding of `|preamble| + |code| + |insert_bytes|` (stated
under the no-`u32`-overflow side condition that the cast
`inner_len as u32` is value-preserving). -/
theorem build_fn_header_finalizes (cb cb' : CodeBuilder) (local_types : List ValueType)
    (frame_size : Int) (frame_pointer : Option LocalId)
    (h : cb.build_fn_header local_types frame_size frame_pointer = some cb') :
    cb'.code.getLast? = some 0x0b
    ∧ cb'.insertions.Pairwise (fun a b => a.at_ ≤ b.at_)
    ∧ (∀ k, cb'.insertions.filter (fun i => i.at_ == k)
          = cb.insertions.filter (fun i => i.at_ == k))
    ∧ (cb'.preamble.length + cb'.code.length + cb'.insert_bytes.length < 2 ^ 32 →
        cb'.inner_length = cb.inner_length
          ++ encode_u32 (cb'.preamble.length + cb'.code.length + cb'.insert_bytes.length)) := by
  unfold CodeBuilder.build_fn_header at h
  rw [Option.bind_eq_some] at h
  obtain ⟨mid, hmid, h⟩ := h
  obtain ⟨d1, d2, d3, d4, d5⟩ := build_local_declarations_fields cb local_types
  have hfields : mid.insertions = cb.insertions ∧ mid.inner_length = cb.inner_length := by
    cases frame_pointer with
    | none =>
      obtain rfl := Option.some.inj hmid
      exact ⟨d1, d2⟩
    | some fp =>
      obtain ⟨p1, p2, -, -⟩ := build_stack_frame_pop_fields hmid
      constructor
      · rw [p1]; simpa [CodeBuilder.build_stack_frame_push] using d1
      · rw [p2]; simpa [CodeBuilder.build_stack_frame_push] using d2
  obtain rfl := Option.some.inj h
  refine ⟨?_, ?_, ?_, ?_⟩
  · simp only [List.getLast?_concat]
    rfl
  · exact pairwise_sortByAt _
  · intro k
    simpa [hfields.1] using filter_sortByAt k mid.insertions
  · intro hlt
    simp only at hlt ⊢
    rw [Nat.mod_eq_of_lt (by simpa using hlt), hfields.2]

theorem build_fn_header_finalizes_witness :
    ∃ cb', CodeBuilder.new.build_fn_header [.I32, .I32, .I64] 32 (some ⟨0⟩) = some cb'
      ∧ (cb'.code.getLast? = some 0x0b
        ∧ cb'.insertions.Pairwise (fun a b => a.at_ ≤ b.at_)
        ∧ (∀ k, cb'.insertions.filter (fun i => i.at_ == k)
              = CodeBuilder.new.insertions.filter (fun i => i.at_ == k))
        ∧ (cb'.preamble.length + cb'.code.length + cb'.insert_bytes.length < 2 ^ 32 →
            cb'.inner_length = CodeBuilder.new.inner_length
              ++ encode_u32 (cb'.preamble.length + cb'.code.length + cb'.insert_bytes.length))) := by
  refine ⟨_, rfl, build_fn_header_finalizes CodeBuilder.new _ [.I32, .I32, .I64] 32 (some ⟨0⟩) rfl⟩

theorem serializeLoop_fst (code ib : List Nat) (base : Nat) (ins : List Insertion) :
    ∀ (pending : List RelocationEntry) (code_pos : Nat) (buffer : List Nat)
      (fr : List RelocationEntry),
      (∀ i ∈ ins, i.start ≤ i.end_ ∧ i.end_ ≤ ib.length ∧ i.at_ ≤ code.length) →
      (∀ i ∈ ins, code_pos ≤ i.at_) →
      ins.Pairwise (fun a b => a.at_ ≤ b.at_) →
      code_pos ≤ code.length →
      (serializeLoop code ib base ins pending code_pos buffer fr).map Prod.fst
        = some (buffer ++ spliceSpecFrom code ib ins code_pos) := by
  induction ins with
  | nil =>
    intro pending code_pos buffer fr _ _ _ hcp
    simp [serializeLoop, spliceSpecFrom, slice?, hcp, List.take_length]
  | cons i rest ih =>
    intro pending code_pos buffer fr hbounds hge hsorted _
    have hi := hbounds i (List.mem_cons_self i rest)
    have hicp : code_pos ≤ i.at_ := hge i (List.mem_cons_self i rest)
    have h1 : slice? code code_pos i.at_ = some ((code.take i.at_).drop code_pos) := by
      simp [slice?, hicp, hi.2.2]
    have h2 : slice? ib i.start i.end_ = some ((ib.take i.end_).drop i.start) := by
      simp [slice?, hi.1, hi.2.1]
    simp only [serializeLoop, h1, h2]
    rw [ih _ i.at_ _ _ (fun j hj => hbounds j (List.mem_cons_of_mem i hj))
      (fun j hj => (List.pairwise_cons.mp hsorted).1 j hj)
      (List.pairwise_cons.mp hsorted).2 hi.2.2]
    simp [spliceSpecFrom, List.append_assoc]

/-- C4: for a `CodeBuilder` whose insertions are sorted ascending by
`at` (and in-bounds, as the data-model invariants require),
`serialize_with_relocs` appends to the buffer exactly `inner_length`,
then `preamble`, then the bytes of `code` interleaved with
`insert_bytes` such that each insertion's slice
`insert_bytes[start..end]` is spliced in immediately before code byte
`at`, all code bytes appearing once in their original order. -/
theorem serialize_splices_insertions (cb : CodeBuilder) (buffer : List Nat)
    (fr : List RelocationEntry) (base : Nat)
    (hbounds : ∀ i ∈ cb.insertions, i.start ≤ i.end_ ∧ i.end_ ≤ cb.insert_bytes.length
      ∧ i.at_ ≤ cb.code.length)
    (hsorted : cb.insertions.Pairwise fun a b => a.at_ ≤ b.at_) :
    (cb.serialize_with_relocs buffer fr base).map Prod.fst
      = some (buffer ++ cb.inner_length ++ cb.preamble
          ++ spliceSpec cb.code cb.insertions cb.insert_bytes) := by
  unfold CodeBuilder.serialize_with_relocs spliceSpec
  rw [serializeLoop_fst cb.code cb.insert_bytes base cb.insertions cb.relocations 0 _ fr
    hbounds (fun _ _ => Nat.zero_le _) hsorted (Nat.zero_le _), List.append_assoc]

theorem serialize_splices_insertions_witness :
    (CodeBuilder.serialize_with_relocs
        { code := [10, 11, 12, 13, 14, 15, 16, 17, 18, 19]
          insert_bytes := [0x21, 0x05, 0x00]
          insertions := [⟨4, 0, 3⟩]
          preamble := [1, 2]
          inner_length := [9]
          vm_block_stack := []
          relocations := [] } [] [] 0).map Prod.fst
      = some ([9] ++ [1, 2]
          ++ ([10, 11, 12, 13] ++ [0x21, 0x05, 0x00] ++ [14, 15, 16, 17, 18, 19])) := by
  have h := serialize_splices_insertions
    { code := [10, 11, 12, 13, 14, 15, 16, 17, 18, 19]
      insert_bytes := [0x21, 0x05, 0x00]
      insertions := [⟨4, 0, 3⟩]
      preamble := [1, 2]
      inner_length := [9]
      vm_block_stack := []
      relocations := [] } [] [] 0 (by decide) (by decide)
  exact h.trans (by rfl)

theorem dropWhile_offset_ge (v : Nat) : ∀ (l : List RelocationEntry),
    l.Pairwise (fun a b => a.offset ≤ b.offset) →
    ∀ r ∈ l.dropWhile (fun r => r.offset < v), v ≤ r.offset := by
  intro l
  induction l with
  | nil => intro _ r hr; simp [List.dropWhile] at hr
  | cons a l ih =>
    intro hp r hr
    rw [List.dropWhile_cons] at hr
    by_cases ha : a.offset < v
    · simp only [ha, decide_True, if_true] at hr
      exact ih (List.pairwise_cons.mp hp).2 r hr
    · simp only [ha, decide_False, if_false] at hr
      rcases List.mem_cons.mp hr with rfl | hr
      · omega
      · have := (List.pairwise_cons.mp hp).1 r hr
        omega

theorem addToOffset_eq_withOffset (r : RelocationEntry) (sbp cp : Nat)
    (hoff : cp ≤ r.offset) (hsbp : cp ≤ sbp) (hbound : sbp + (r.offset - cp) < 2 ^ 32) :
    r.addToOffset (sbp - cp) = r.withOffset (sbp + (r.offset - cp)) := by
  cases r with
  | Index t o s =>
    have hoff' : cp ≤ o := hoff
    have hbound' : sbp + (o - cp) < 2 ^ 32 := hbound
    show RelocationEntry.Index t ((o + (sbp - cp)) % 2 ^ 32) s
        = RelocationEntry.Index t (sbp + (o - cp)) s
    rw [Nat.mod_eq_of_lt (by omega)]
    congr 1
    omega
  | Offset t o s a =>
    have hoff' : cp ≤ o := hoff
    have hbound' : sbp + (o - cp) < 2 ^ 32 := hbound
    show RelocationEntry.Offset t ((o + (sbp - cp)) % 2 ^ 32) s a
        = RelocationEntry.Offset t (sbp + (o - cp)) s a
    rw [Nat.mod_eq_of_lt (by omega)]
    congr 1
    omega

theorem relocSpecFrom_length (code_len base : Nat) (ins : List Insertion) :
    ∀ (pending : List RelocationEntry) (cp buf_len : Nat),
      (∀ r ∈ pending, r.offset < code_len) →
      (relocSpecFrom code_len base ins pending cp buf_len).length = pending.length := by
  induction ins with
  | nil =>
    intro pending cp buf_len h
    simp only [relocSpecFrom, List.length_map]
    rw [List.takeWhile_eq_self_iff.mpr fun x hx => by simpa using h x hx]
  | cons i rest ih =>
    intro pending cp buf_len h
    simp only [relocSpecFrom, List.length_append, List.length_map]
    rw [ih _ _ _ fun r hr => h r ((List.dropWhile_sublist _).mem hr)]
    have := congrArg List.length
      (List.takeWhile_append_dropWhile (p := fun r => decide (r.offset < i.at_)) (l := pending))
    simp only [List.length_append] at this
    omega

theorem insSizes_cons (i : Insertion) (l : List Insertion) :
    insSizes (i :: l) = (i.end_ - i.start) + insSizes l := by
  simp [insSizes]

theorem serializeLoop_eq (code ib : List Nat) (base : Nat) (ins : List Insertion) :
    ∀ (pending : List RelocationEntry) (cp : Nat) (buffer : List Nat)
      (fr : List RelocationEntry),
      (∀ i ∈ ins, i.start ≤ i.end_ ∧ i.end_ ≤ ib.length ∧ i.at_ ≤ code.length) →
      (∀ i ∈ ins, cp ≤ i.at_) →
      ins.Pairwise (fun a b => a.at_ ≤ b.at_) →
      cp ≤ code.length →
      code.length < 2 ^ 32 →
      (∀ r ∈ pending, cp ≤ r.offset) →
      pending.Pairwise (fun a b => a.offset ≤ b.offset) →
      base + cp ≤ buffer.length →
      (buffer.length - base) + (code.length - cp) + insSizes ins < 2 ^ 32 →
      serializeLoop code ib base ins pending cp buffer fr
        = some (buffer ++ spliceSpecFrom code ib ins cp,
                fr ++ relocSpecFrom code.length base ins pending cp buffer.length) := by
  induction ins with
  | nil =>
    intro pending cp buffer fr _ _ _ hcp hclen hpoff hpsort hbase hsize
    have hsz : insSizes ([] : List Insertion) = 0 := rfl
    have hmod : code.length % 2 ^ 32 = code.length := Nat.mod_eq_of_lt hclen
    have hslice : slice? code cp code.length = some ((code.take code.length).drop cp) := by
      simp [slice?, hcp]
    have hmap : (pending.takeWhile fun r => r.offset < code.length).map
          (fun r => r.addToOffset (buffer.length - base - cp))
        = (pending.takeWhile fun r => r.offset < code.length).map
          (fun r => r.withOffset ((buffer.length - base) + (r.offset - cp))) := by
      apply List.map_congr_left
      intro r hr
      have hrp : r ∈ pending := (List.takeWhile_sublist _).mem hr
      have hlt : r.offset < code.length := by simpa using List.mem_takeWhile_imp hr
      have h1 := hpoff r hrp
      exact addToOffset_eq_withOffset r (buffer.length - base) cp h1 (by omega) (by omega)
    simp only [serializeLoop, relocSpecFrom, spliceSpecFrom, hmod, hslice, hmap,
      List.take_length]
  | cons i rest ih =>
    intro pending cp buffer fr hbounds hge hsorted hcp hclen hpoff hpsort hbase hsize
    have hi := hbounds i (List.mem_cons_self i rest)
    have hicp : cp ≤ i.at_ := hge i (List.mem_cons_self i rest)
    have hmod : i.at_ % 2 ^ 32 = i.at_ := Nat.mod_eq_of_lt (by omega)
    have h1 : slice? code cp i.at_ = some ((code.take i.at_).drop cp) := by
      simp [slice?, hicp, hi.2.2]
    have h2 : slice? ib i.start i.end_ = some ((ib.take i.end_).drop i.start) := by
      simp [slice?, hi.1, hi.2.1]
    have hseglen : ((code.take i.at_).drop cp).length = i.at_ - cp := by
      simp only [List.length_drop, List.length_take]
      omega
    have hiblen : ((ib.take i.end_).drop i.start).length = i.end_ - i.start := by
      simp only [List.length_drop, List.length_take]
      omega
    have hmap : (pending.takeWhile fun r => r.offset < i.at_).map
          (fun r => r.addToOffset (buffer.length - base - cp))
        = (pending.takeWhile fun r => r.offset < i.at_).map
          (fun r => r.withOffset ((buffer.length - base) + (r.offset - cp))) := by
      apply List.map_congr_left
      intro r hr
      have hrp : r ∈ pending := (List.takeWhile_sublist _).mem hr
      have hlt : r.offset < i.at_ := by simpa using List.mem_takeWhile_imp hr
      have h0 := hpoff r hrp
      exact addToOffset_eq_withOffset r (buffer.length - base) cp h0 (by omega)
        (by have := hi.2.2; omega)
    have hlen3 : (buffer ++ (code.take i.at_).drop cp ++ (ib.take i.end_).drop i.start).length
        = buffer.length + (i.at_ - cp) + (i.end_ - i.start) := by
      simp only [List.length_append, hseglen, hiblen]
    have hrec := ih (pending.dropWhile fun r => r.offset < i.at_) i.at_
      (buffer ++ (code.take i.at_).drop cp ++ (ib.take i.end_).drop i.start)
      (fr ++ (pending.takeWhile fun r => r.offset < i.at_).map
        fun r => r.addToOffset (buffer.length - base - cp))
      (fun j hj => hbounds j (List.mem_cons_of_mem i hj))
      (fun j hj => (List.pairwise_cons.mp hsorted).1 j hj)
      (List.pairwise_cons.mp hsorted).2 hi.2.2 hclen
      (dropWhile_offset_ge i.at_ pending hpsort)
      (List.Pairwise.sublist (List.dropWhile_sublist _) hpsort)
      (by rw [hlen3]; omega)
      (by rw [hlen3]; rw [insSizes_cons] at hsize; omega)
    simp only [serializeLoop, hmod, h1, h2]
    rw [hrec]
    simp only [spliceSpecFrom, relocSpecFrom, hmap, List.append_assoc, List.length_append,
      hseglen, hiblen, Nat.add_assoc]

theorem withOffset_offset (r : RelocationEntry) (o : Nat) : (r.withOffset o).offset = o := by
  cases r <;> rfl

theorem relocSpecFrom_bytes (code ib : List Nat) (base : Nat) (ins : List Insertion) :
    ∀ (pending : List RelocationEntry) (cp : Nat) (prefx : List Nat),
      (∀ i ∈ ins, i.start ≤ i.end_ ∧ i.end_ ≤ ib.length ∧ i.at_ ≤ code.length) →
      (∀ i ∈ ins, cp ≤ i.at_) →
      ins.Pairwise (fun a b => a.at_ ≤ b.at_) →
      cp ≤ code.length →
      (∀ r ∈ pending, cp ≤ r.offset ∧ r.offset < code.length) →
      pending.Pairwise (fun a b => a.offset ≤ b.offset) →
      base ≤ prefx.length →
      List.Forall₂ (fun r r2 =>
          base + r2.offset < (prefx ++ spliceSpecFrom code ib ins cp).length
          ∧ (prefx ++ spliceSpecFrom code ib ins cp)[base + r2.offset]? = code[r.offset]?)
        pending (relocSpecFrom code.length base ins pending cp prefx.length) := by
  induction ins with
  | nil =>
    intro pending cp prefx _ _ _ hcp hro _ hbase
    simp only [relocSpecFrom, spliceSpecFrom]
    rw [List.takeWhile_eq_self_iff.mpr fun x hx => by simpa using (hro x hx).2]
    rw [List.forall₂_map_right_iff]
    rw [List.forall₂_same]
    intro r hr
    obtain ⟨h1, h2⟩ := hro r hr
    rw [withOffset_offset]
    have hidx : base + (prefx.length - base + (r.offset - cp)) = prefx.length + (r.offset - cp) := by
      omega
    constructor
    · rw [hidx]
      simp only [List.length_append, List.length_drop]
      omega
    · rw [hidx, List.getElem?_append_right (by omega : prefx.length ≤ prefx.length + (r.offset - cp))]
      have h3 : prefx.length + (r.offset - cp) - prefx.length = r.offset - cp := by omega
      rw [h3, List.getElem?_drop]
      congr 1
      omega
  | cons i rest ih =>
    intro pending cp prefx hbounds hge hsorted hcp hro hps hbase
    have hi := hbounds i (List.mem_cons_self i rest)
    have hicp : cp ≤ i.at_ := hge i (List.mem_cons_self i rest)
    have hseglen : ((code.take i.at_).drop cp).length = i.at_ - cp := by
      simp only [List.length_drop, List.length_take]
      omega
    have hiblen : ((ib.take i.end_).drop i.start).length = i.end_ - i.start := by
      simp only [List.length_drop, List.length_take]
      omega
    have hrec := ih (pending.dropWhile fun r => r.offset < i.at_) i.at_
      (prefx ++ (code.take i.at_).drop cp ++ (ib.take i.end_).drop i.start)
      (fun j hj => hbounds j (List.mem_cons_of_mem i hj))
      (fun j hj => (List.pairwise_cons.mp hsorted).1 j hj)
      (List.pairwise_cons.mp hsorted).2 hi.2.2
      (fun r hr => ⟨dropWhile_offset_ge i.at_ pending hps r hr,
        (hro r ((List.dropWhile_sublist _).mem hr)).2⟩)
      (List.Pairwise.sublist (List.dropWhile_sublist _) hps)
      (by simp only [List.length_append]; omega)
    have hout : prefx ++ (code.take i.at_).drop cp ++ (ib.take i.end_).drop i.start
          ++ spliceSpecFrom code ib rest i.at_
        = prefx ++ spliceSpecFrom code ib (i :: rest) cp := by
      simp [spliceSpecFrom, List.append_assoc]
    have hlen4 : (prefx ++ (code.take i.at_).drop cp ++ (ib.take i.end_).drop i.start).length
        = prefx.length + (i.at_ - cp) + (i.end_ - i.start) := by
      simp only [List.length_append, hseglen, hiblen]
    rw [hout, hlen4] at hrec
    have hmoved : List.Forall₂ (fun r r2 =>
          base + r2.offset < (prefx ++ spliceSpecFrom code ib (i :: rest) cp).length
          ∧ (prefx ++ spliceSpecFrom code ib (i :: rest) cp)[base + r2.offset]? = code[r.offset]?)
        (pending.takeWhile fun r => r.offset < i.at_)
        ((pending.takeWhile fun r => r.offset < i.at_).map fun r =>
          r.withOffset ((prefx.length - base) + (r.offset - cp))) := by
      rw [List.forall₂_map_right_iff, List.forall₂_same]
      intro r hr
      have hrp : r ∈ pending := (List.takeWhile_sublist _).mem hr
      have hlt : r.offset < i.at_ := by simpa using List.mem_takeWhile_imp hr
      obtain ⟨h1, h2⟩ := hro r hrp
      rw [withOffset_offset]
      have hidx : base + (prefx.length - base + (r.offset - cp))
          = prefx.length + (r.offset - cp) := by omega
      have houtlen : (prefx ++ spliceSpecFrom code ib (i :: rest) cp).length
          = prefx.length + (i.at_ - cp) + (i.end_ - i.start)
            + (spliceSpecFrom code ib rest i.at_).length := by
        rw [← hout]
        simp only [List.length_append, hseglen, hiblen]
      constructor
      · rw [hidx, houtlen]
        omega
      · rw [hidx, ← hout, List.append_assoc, List.append_assoc,
          List.getElem?_append_right (by omega : prefx.length ≤ prefx.length + (r.offset - cp))]
        have h3 : prefx.length + (r.offset - cp) - prefx.length = r.offset - cp := by omega
        rw [h3, List.getElem?_append_left (by omega : r.offset - cp < ((code.take i.at_).drop cp).length),
          List.getElem?_drop]
        have h4 : cp + (r.offset - cp) = r.offset := by omega
        rw [h4, List.getElem?_take_of_lt hlt]
    have hsplit := List.rel_append hmoved hrec
    simp only [List.takeWhile_append_dropWhile] at hsplit
    simpa only [relocSpecFrom] using hsplit

/-- C3 (amended): with in-bounds sorted insertions and relocations
recorded in ascending offset order inside the code (every original
offset strictly below `code.len()`, as `call` and
`insert_memory_relocation` followed by `build_fn_header`'s final `end`
byte guarantee), `serialize_with_relocs` copies every relocation whose
original offset is strictly less than the next insertion's `at` (or
strictly less than end-of-code in the final segment) into
`final_relocs` — the strictness at end-of-code is the one correction to
the claim — rewriting its offset to (buffer size before writing that
code segment minus `reloc_base_offset`) plus (original offset minus the
code position at the start of that segment), as captured by
`relocSpecFrom`; no relocation whose original offset is strictly less
than `code.len()` is dropped (the emitted list has the same length);
and every emitted relocation's new offset plus `reloc_base_offset`
indexes the buffer byte equal to `code[original offset]` — the byte
where the corresponding LEB128 immediate starts. The size hypotheses
rule out `u32` wrap-around of the rewritten offsets. -/
theorem serialize_relocs_rewrite (cb : CodeBuilder) (buffer : List Nat)
    (fr : List RelocationEntry) (base : Nat)
    (hbounds : ∀ i ∈ cb.insertions, i.start ≤ i.end_ ∧ i.end_ ≤ cb.insert_bytes.length
      ∧ i.at_ ≤ cb.code.length)
    (hsorted : cb.insertions.Pairwise fun a b => a.at_ ≤ b.at_)
    (hro : ∀ r ∈ cb.relocations, r.offset < cb.code.length)
    (hrsorted : cb.relocations.Pairwise fun a b => a.offset ≤ b.offset)
    (hclen : cb.code.length < 2 ^ 32)
    (hbase : base ≤ buffer.length)
    (hsize : (buffer.length + cb.inner_length.length + cb.preamble.length - base)
      + cb.code.length + insSizes cb.insertions < 2 ^ 32) :
    cb.serialize_with_relocs buffer fr base
      = some (buffer ++ cb.inner_length ++ cb.preamble
            ++ spliceSpec cb.code cb.insertions cb.insert_bytes,
          fr ++ relocSpecFrom cb.code.length base cb.insertions cb.relocations 0
            (buffer.length + cb.inner_length.length + cb.preamble.length))
    ∧ (relocSpecFrom cb.code.length base cb.insertions cb.relocations 0
        (buffer.length + cb.inner_length.length + cb.preamble.length)).length
      = cb.relocations.length
    ∧ List.Forall₂ (fun r r2 =>
        base + r2.offset < (buffer ++ cb.inner_length ++ cb.preamble
          ++ spliceSpec cb.code cb.insertions cb.insert_bytes).length
        ∧ (buffer ++ cb.inner_length ++ cb.preamble
            ++ spliceSpec cb.code cb.insertions cb.insert_bytes)[base + r2.offset]?
          = cb.code[r.offset]?)
      cb.relocations
      (relocSpecFrom cb.code.length base cb.insertions cb.relocations 0
        (buffer.length + cb.inner_length.length + cb.preamble.length)) := by
  have hlenpre : (buffer ++ cb.inner_length ++ cb.preamble).length
      = buffer.length + cb.inner_length.length + cb.preamble.length := by
    simp [List.length_append, Nat.add_assoc]
  refine ⟨?_, ?_, ?_⟩
  · unfold CodeBuilder.serialize_with_relocs spliceSpec
    rw [serializeLoop_eq cb.code cb.insert_bytes base cb.insertions cb.relocations 0
      (buffer ++ cb.inner_length ++ cb.preamble) fr hbounds (fun _ _ => Nat.zero_le _)
      hsorted (Nat.zero_le _) hclen (fun _ _ => Nat.zero_le _) hrsorted
      (by omega) (by rw [hlenpre]; omega), hlenpre, List.append_assoc]
  · exact relocSpecFrom_length cb.code.length base cb.insertions cb.relocations 0 _ hro
  · have hb := relocSpecFrom_bytes cb.code cb.insert_bytes base cb.insertions cb.relocations 0
      (buffer ++ cb.inner_length ++ cb.preamble) hbounds (fun _ _ => Nat.zero_le _)
      hsorted (Nat.zero_le _) (fun r hr => ⟨Nat.zero_le _, hro r hr⟩) hrsorted (by omega)
    rw [hlenpre] at hb
    simpa only [spliceSpec, List.append_assoc] using hb

theorem serialize_relocs_rewrite_witness :
    CodeBuilder.serialize_with_relocs
        { code := [1, 2], insert_bytes := [9], insertions := [⟨1, 0, 1⟩], preamble := [],
          inner_length := [], vm_block_stack := [],
          relocations := [.Index .FunctionIndexLeb 1 0] } [] [] 0
      = some ([1, 9, 2], [.Index .FunctionIndexLeb 2 0]) := by
  have h := serialize_relocs_rewrite
    { code := [1, 2], insert_bytes := [9], insertions := [⟨1, 0, 1⟩], preamble := [],
      inner_length := [], vm_block_stack := [],
      relocations := [.Index .FunctionIndexLeb 1 0] } [] [] 0
    (by decide) (by decide) (by decide) (by decide) (by decide) (by decide) (by decide)
  exact h.1.trans (by rfl)

/-- C3 (counterexample to the claim as stated): a relocation whose
original offset is exactly `code.len()` IS dropped, because the final
segment's loop condition is the strict `offset < next_pos` with
`next_pos = code.len()`; so it is not true that no relocation with
original offset at most `code.len()` is dropped. Here the builder has
one relocation at offset 1 = `code.len()`, yet serialization emits an
empty `final_relocs`. -/
theorem serialize_drops_reloc_at_code_len :
    CodeBuilder.serialize_with_relocs
        { code := [0x00], insert_bytes := [], insertions := [], preamble := [],
          inner_length := [], vm_block_stack := [],
          relocations := [.Index .FunctionIndexLeb 1 0] } [] [] 0
      = some ([0x00], [])
    ∧ (RelocationEntry.Index .FunctionIndexLeb 1 0).offset ≤ ([0x00] : List Nat).length := by
  exact ⟨by rfl, by decide⟩

end RocWasm
